import Mathlib

/-!
Shallow embedding of the Knowledge Indexing Engine of `scixtract`
(`src/scixtract/knowledge.py`, class `KnowledgeTracker`), together with
proofs settling the specification claims about it.

Strings are modelled as lists of characters; the SQLite tables are
modelled as lists of row structures (the hidden AUTOINCREMENT `id`
columns, which carry no content, are omitted).  Each SQL statement is
translated into the corresponding pure list operation.
-/

namespace SciXtract

abbrev Str := List Char

/-- ASCII lower-casing of one character, as Python `str.lower` and SQLite
`LIKE` fold ASCII letters. -/
def lowerChar (c : Char) : Char :=
  if 65 ≤ c.toNat ∧ c.toNat ≤ 90 then Char.ofNat (c.toNat + 32) else c

/-- `s.lower()` on a Python string. -/
def lower (s : Str) : Str := s.map lowerChar

/-- Python `text.find(pat)`: index of the first occurrence of `pat` in
`text`, `none` when absent (Python returns `-1`).  The empty pattern is
found at index 0. -/
def findSub (pat : Str) : Str → Option Nat
  | [] => if pat.isEmpty then some 0 else none
  | c :: cs =>
    if pat.isPrefixOf (c :: cs) then some 0
    else (findSub pat cs).map (· + 1)

/-- `len(re.findall(re.escape(pat), text))` for a nonempty pattern
`p :: ps`: the number of non-overlapping, leftmost occurrences.  After a
match the scan resumes one pattern-length further on; `skip` counts the
characters still to pass over before matching may resume, so that the
recursion is structural in the text. -/
def countOccAux (p : Char) (ps : Str) : Str → Nat → Nat
  | [], _ => 0
  | _ :: cs, skip + 1 => countOccAux p ps cs skip
  | c :: cs, 0 =>
    if (p :: ps).isPrefixOf (c :: cs) then 1 + countOccAux p ps cs ps.length
    else countOccAux p ps cs 0

/-- `len(re.findall(re.escape(pat), text))`.  For the empty pattern
Python's `re.findall` returns `len(text) + 1` matches. -/
def countOcc (pat text : Str) : Nat :=
  match pat with
  | [] => text.length + 1
  | p :: ps => countOccAux p ps text 0

/-- Python `str.split()` with no argument: split on whitespace runs,
dropping empty pieces. -/
def splitWsAux : Str → Str → List Str
  | acc, [] => if acc.isEmpty then [] else [acc.reverse]
  | acc, c :: cs =>
    if c.isWhitespace then
      if acc.isEmpty then splitWsAux [] cs
      else acc.reverse :: splitWsAux [] cs
    else splitWsAux (c :: acc) cs

def splitWs (s : Str) : List Str := splitWsAux [] s

/-- Python `str.strip()`: remove leading and trailing whitespace. -/
def stripStr (s : Str) : Str :=
  ((s.dropWhile Char.isWhitespace).reverse.dropWhile Char.isWhitespace).reverse

/-- Substring containment (`pat in s` on Python strings). -/
def containsSub (pat s : Str) : Bool := (findSub pat s).isSome

/-- `f` holds of some suffix of the string (the string itself and the
empty suffix included). -/
def suffixMatch (f : Str → Bool) : Str → Bool
  | [] => f []
  | c :: cs => f (c :: cs) || suffixMatch f cs

/-- SQLite `LIKE` pattern matching: `%` matches any run of characters
(including none) — realized as trying the rest of the pattern on every
suffix — `_` matches exactly one character, any other pattern character
matches one string character case-insensitively (ASCII folding on both
sides), and the pattern must cover the whole string. -/
def likePattern : Str → Str → Bool
  | [] => fun s => s.isEmpty
  | p :: ps => fun s =>
    if p = '%' then suffixMatch (fun u => likePattern ps u) s
    else
      match s with
      | [] => false
      | c :: cs =>
        if p = '_' then likePattern ps cs
        else (lowerChar p == lowerChar c) && likePattern ps cs

/-- The pattern `'%' + q.lower() + '%'` the code interpolates — without
escaping `%` or `_` — into its `LIKE` queries (lines 278 and 380). -/
def likeQueryPattern (q : Str) : Str := '%' :: lower q ++ ['%']

/-- `KnowledgeTracker._extract_keyword_context(keyword, text,
context_length)`: context window of Python source lines 200-222.
Nat subtraction makes `pos - context_length / 2` the Python
`max(0, pos - context_length // 2)`. -/
def extractKeywordContext (keyword text : Str) (context_length : Nat) : Str :=
  match findSub (lower keyword) (lower text) with
  | none => []
  | some pos =>
    let start := pos - context_length / 2
    let stop := min text.length (pos + keyword.length + context_length / 2)
    let context := stripStr ((text.drop start).take (stop - start))
    let context := if 0 < start then "...".data ++ context else context
    if stop < text.length then context ++ "...".data else context

/-! ## Data model: input records and store rows -/

/-- `result_data["metadata"]` of an extraction result.  A missing
`cite_key` reads as `""` via `metadata.get("cite_key", "")`, so a missing
key is the empty list here.  `processing_time` is kept abstract as an
integer number of microseconds; no claim inspects it. -/
structure Metadata where
  cite_key : Str
  title : Str
  authors : List Str
  year : Str
  keywords : List Str
  page_count : Nat
  extraction_date : Str
  processing_time : Int
deriving DecidableEq, Repr

/-- One element of `result_data["pages"]`.  Only the lengths of the
`figures` / `tables` / `equations` lists are stored, so the lists are
modelled by their lengths. -/
structure PageData where
  page_num : Nat
  content_type : Str
  keywords : List Str
  processed_text : Str
  figures : Nat
  tables : Nat
  equations : Nat
deriving DecidableEq, Repr

/-- The extraction result record consumed by `add_extraction_result`. -/
structure ExtractionResult where
  metadata : Metadata
  pages : List PageData
  key_concepts : List Str
deriving DecidableEq, Repr

/-- A row of the `documents` table (primary key `cite_key`). -/
structure DocRow where
  cite_key : Str
  title : Str
  authors : List Str
  year : Str
  keywords : List Str
  key_concepts : List Str
  page_count : Nat
  extraction_date : Str
  file_path : Str
  processing_time : Int
deriving DecidableEq, Repr

/-- A row of the `pages` table (without the contentless AUTOINCREMENT id). -/
structure PageRow where
  cite_key : Str
  page_num : Nat
  content_type : Str
  keywords : List Str
  word_count : Nat
  has_figures : Bool
  has_tables : Bool
  has_equations : Bool
deriving DecidableEq, Repr

/-- A row of the `keywords` table (without the AUTOINCREMENT id). -/
structure KeywordRow where
  keyword : Str
  cite_key : Str
  page_num : Nat
  frequency : Nat
  context : Str
deriving DecidableEq, Repr

/-- A row of the `concept_network` table (without the AUTOINCREMENT id). -/
structure EdgeRow where
  concept : Str
  related_concept : Str
  cite_key : Str
  co_occurrence_count : Nat
deriving DecidableEq, Repr

/-- The four tables of the SQLite store. -/
@[ext] structure Store where
  documents : List DocRow
  pages : List PageRow
  keywords : List KeywordRow
  concept_network : List EdgeRow
deriving DecidableEq, Repr

def emptyStore : Store := ⟨[], [], [], []⟩

/-! ## Ingestion (`add_extraction_result`, lines 107-198) -/

/-- The document row built by the `INSERT OR REPLACE INTO documents`
statement (lines 118-137). -/
def mkDocRow (m : Metadata) (key_concepts : List Str) (file_path : Str) : DocRow :=
  { cite_key := m.cite_key
    title := m.title
    authors := m.authors
    year := m.year
    keywords := m.keywords
    key_concepts := key_concepts
    page_count := m.page_count
    extraction_date := m.extraction_date
    file_path := file_path
    processing_time := m.processing_time }

/-- The page row built by `INSERT INTO pages` (lines 147-164). -/
def mkPageRow (cite_key : Str) (p : PageData) : PageRow :=
  { cite_key := cite_key
    page_num := p.page_num
    content_type := p.content_type
    keywords := p.keywords
    word_count := (splitWs p.processed_text).length
    has_figures := 0 < p.figures
    has_tables := 0 < p.tables
    has_equations := 0 < p.equations }

/-- The keyword row built by `INSERT INTO keywords` (lines 170-192):
frequency is the case-insensitive non-overlapping occurrence count of the
keyword in the page text, context from `_extract_keyword_context` with the
default window 200, and the keyword is stored lower-cased. -/
def mkKeywordRow (cite_key : Str) (p : PageData) (kw : Str) : KeywordRow :=
  { keyword := lower kw
    cite_key := cite_key
    page_num := p.page_num
    frequency := countOcc (lower kw) (lower p.processed_text)
    context := extractKeywordContext kw p.processed_text 200 }

/-- First transaction of `add_extraction_result` (lines 114-195, committed
by the `conn.commit()` on line 194): replace the document row, delete all
page and keyword rows of this citation key, and insert the fresh page and
keyword rows. -/
def ingestMain (s : Store) (r : ExtractionResult) (file_path : Str) : Store :=
  let k := r.metadata.cite_key
  { documents :=
      (s.documents.filter fun d => decide (d.cite_key ≠ k)) ++
        [mkDocRow r.metadata r.key_concepts file_path]
    pages :=
      (s.pages.filter fun p => decide (p.cite_key ≠ k)) ++
        r.pages.map (mkPageRow k)
    keywords :=
      (s.keywords.filter fun x => decide (x.cite_key ≠ k)) ++
        r.pages.flatMap fun p => p.keywords.map (mkKeywordRow k p)
    concept_network := s.concept_network }

/-! ## Concept network rebuild (`_build_concept_network_for_document`) -/

/-- The keyword rows of one citation key (`WHERE cite_key = ?`). -/
def rowsFor (rows : List KeywordRow) (k : Str) : List KeywordRow :=
  rows.filter fun x => decide (x.cite_key = k)

/-- `COUNT(*)` of the rows carrying one given keyword. -/
def countRows (rows : List KeywordRow) (kw : Str) : Nat :=
  (rows.filter fun x => decide (x.keyword = kw)).length

/-- Distinct elements of a list, first occurrences kept (`GROUP BY`
groups, in a deterministic order). -/
def dedupF {α : Type} [DecidableEq α] (seen : List α) : List α → List α
  | [] => []
  | x :: xs => if x ∈ seen then dedupF seen xs else x :: dedupF (x :: seen) xs

/-- Stable insertion into a weight-descending list: the new pair goes
before the first strictly lighter element, so equal weights keep their
relative order. -/
def insertDesc {α : Type} (w : α → Nat) (x : α) : List α → List α
  | [] => [x]
  | y :: ys => if w y ≤ w x then x :: y :: ys else y :: insertDesc w x ys

/-- Stable sort by descending weight (`ORDER BY ... DESC`; ties keep the
deterministic storage order, the tie-break the spec leaves to the
implementation). -/
def sortDesc {α : Type} (w : α → Nat) : List α → List α
  | [] => []
  | x :: xs => insertDesc w x (sortDesc w xs)

/-- The `SELECT keyword, COUNT(*) ... GROUP BY keyword ORDER BY frequency
DESC LIMIT 20` of lines 233-243, as a function of the document's keyword
rows: distinct keywords with their occurrence-row counts, sorted by count
descending, truncated to 20. -/
def rankKeywords (rows : List KeywordRow) : List Str :=
  let distinct := dedupF [] (rows.map (·.keyword))
  ((sortDesc (·.2) (distinct.map fun kw => (kw, countRows rows kw))).map (·.1)).take 20

/-- The ranked top-20 keyword list of a citation key in a store state. -/
def rankedKeywords (s : Store) (k : Str) : List Str :=
  rankKeywords (rowsFor s.keywords k)

/-- All ordered pairs `(l[i], l[j])` with `i < j` (the nested loop of
lines 248-257). -/
def allPairs {α : Type} : List α → List (α × α)
  | [] => []
  | x :: xs => (xs.map fun y => (x, y)) ++ allPairs xs

/-- `_build_concept_network_for_document` (lines 224-260): delete the
citation key's edges, then insert one weight-1 edge per pair of its
ranked top-20 keywords.  Runs on its own connection with its own commit. -/
def buildConceptNetworkForDocument (s : Store) (k : Str) : Store :=
  { s with concept_network :=
      (s.concept_network.filter fun e => decide (e.cite_key ≠ k)) ++
        (allPairs (rankedKeywords s k)).map fun pr =>
          { concept := pr.1, related_concept := pr.2, cite_key := k
            co_occurrence_count := 1 } }

/-- `add_extraction_result` in full: the main transaction followed by the
separately-committed network rebuild (line 198). -/
def addExtractionResult (s : Store) (r : ExtractionResult) (file_path : Str) : Store :=
  buildConceptNetworkForDocument (ingestMain s r file_path) r.metadata.cite_key

/-! ## Query layer -/

/-- One record returned by `search_keywords` (the projected columns of
the `SELECT DISTINCT` on lines 270-276, `authors` already JSON-decoded). -/
structure SearchRecord where
  cite_key : Str
  title : Str
  authors : List Str
  keyword : Str
  context : Str
  page_num : Nat
deriving DecidableEq, Repr

/-- The first `documents` row with the given citation key (the `JOIN
documents d ON k.cite_key = d.cite_key`; `cite_key` is a primary key, so
at most one row exists). -/
def findDoc (s : Store) (k : Str) : Option DocRow :=
  s.documents.find? fun d => decide (d.cite_key = k)

/-- The keyword rows matched by `k.keyword LIKE '%query.lower()%'`
(lines 274, 278): full SQLite `LIKE` semantics — the query's own `%` and
`_` characters act as wildcards, since the code does not escape them. -/
def matchingRows (s : Store) (query : Str) : List KeywordRow :=
  s.keywords.filter fun row => likePattern (likeQueryPattern query) row.keyword

/-- The matched rows in `ORDER BY k.frequency DESC` order. -/
def searchSorted (s : Store) (query : Str) : List KeywordRow :=
  sortDesc (·.frequency) (matchingRows s query)

/-- The projection of one joined row onto the selected columns. -/
def mkSearchRecord (d : DocRow) (row : KeywordRow) : SearchRecord :=
  { cite_key := row.cite_key, title := d.title, authors := d.authors
    keyword := row.keyword, context := row.context, page_num := row.page_num }

/-- The matched rows joined to their owning document rows, in frequency
order (the join drops a row only if its document is absent, which never
happens in a state produced by ingestion). -/
def searchJoined (s : Store) (query : Str) : List SearchRecord :=
  (searchSorted s query).filterMap fun row =>
    (findDoc s row.cite_key).map fun d => mkSearchRecord d row

/-- `search_keywords(query, limit)` (lines 262-298): matched rows sorted
by frequency descending, joined to their document row, `DISTINCT` on the
projected record (first occurrence kept), capped at `limit`. -/
def searchKeywords (s : Store) (query : Str) (limit : Nat) : List SearchRecord :=
  (dedupF [] (searchJoined s query)).take limit

/-- The edges matched by `concept LIKE '%concept.lower()%'` (line 375). -/
def matchingEdges (s : Store) (concept : Str) : List EdgeRow :=
  s.concept_network.filter fun e => likePattern (likeQueryPattern concept) e.concept

/-- The `GROUP BY related_concept` groups with their summed
`co_occurrence_count` (lines 371-381), before ordering and `LIMIT`. -/
def relatedGroups (s : Store) (concept : Str) : List (Str × Nat) :=
  (dedupF [] ((matchingEdges s concept).map (·.related_concept))).map fun rc =>
    (rc, (((matchingEdges s concept).filter fun e =>
      decide (e.related_concept = rc)).map (·.co_occurrence_count)).sum)

/-- `get_related_concepts(concept, limit)` (lines 364-386). -/
def getRelatedConcepts (s : Store) (concept : Str) (limit : Nat) : List (Str × Nat) :=
  (sortDesc (·.2) (relatedGroups s concept)).take limit

/-- All distinct keywords with their aggregate occurrence-row counts
(the `GROUP BY keyword` of lines 394-403 and 319-327). -/
def keywordCounts (s : Store) : List (Str × Nat) :=
  (dedupF [] (s.keywords.map (·.keyword))).map fun kw =>
    (kw, countRows s.keywords kw)

/-- The per-group value the `HAVING frequency > 2` of line 399 actually
tests: SQLite resolves the bare name `frequency` to the
`keywords.frequency` table column — not to the `COUNT(*) AS frequency`
result alias — and evaluates a non-aggregated column on an arbitrarily
chosen row of the group; under the grouping index scan that is the last
row of the group in storage order, which this model fixes as the
representative.  (`ORDER BY frequency DESC` in the same query does
resolve to the alias.) -/
def groupFrequency (rows : List KeywordRow) (kw : Str) : Nat :=
  ((((rows.filter fun r => decide (r.keyword = kw)).map (·.frequency)).getLast?).getD 0)

/-- The node candidates of `export_knowledge_graph` (lines 394-403):
groups passing `HAVING frequency > 2`, i.e. keywords whose representative
row's stored per-row frequency exceeds 2 — not, as the alias and the spec
suggest, keywords with aggregate occurrence-row count above 2. -/
def qualifyingNodes (s : Store) : List (Str × Nat) :=
  (keywordCounts s).filter fun p => decide (2 < groupFrequency s.keywords p.1)

/-- All distinct `(concept, related_concept)` pairs with their summed
weights (the `GROUP BY concept, related_concept` of lines 409-418). -/
def edgeWeights (s : Store) : List (Str × Str × Nat) :=
  (dedupF [] (s.concept_network.map fun e => (e.concept, e.related_concept))).map
    fun pr =>
      (pr.1, pr.2, ((s.concept_network.filter fun e =>
        decide (e.concept = pr.1 ∧ e.related_concept = pr.2)).map
          (·.co_occurrence_count)).sum)

/-- The edge candidates of `export_knowledge_graph`: concept pairs whose
summed weight exceeds 1 — here the `HAVING weight > 1` does test the
aggregate, because `concept_network` has no column named `weight`, so the
bare name resolves to the `SUM(co_occurrence_count) AS weight` alias. -/
def qualifyingEdges (s : Store) : List (Str × Str × Nat) :=
  (edgeWeights s).filter fun p => decide (1 < p.2.2)

/-- The graph document written by `export_knowledge_graph` (the
non-deterministic `generated` timestamp is not modelled; no claim
inspects it). -/
structure GraphData where
  nodes : List (Str × Nat)
  edges : List (Str × Str × Nat)
  node_count : Nat
  edge_count : Nat
deriving DecidableEq, Repr

/-- `export_knowledge_graph` (lines 388-438): top-100 qualifying nodes by
count descending, top-200 qualifying edges by weight descending, and
metadata counts equal to the lengths of the two lists. -/
def exportKnowledgeGraph (s : Store) : GraphData :=
  let nodes := (sortDesc (·.2) (qualifyingNodes s)).take 100
  let edges := (sortDesc (·.2.2) (qualifyingEdges s)).take 200
  { nodes := nodes, edges := edges
    node_count := nodes.length, edge_count := edges.length }

/-! ## Reachable committed states

Each `conn.commit()` makes a state durable: `add_extraction_result`
commits once at line 194 (document, pages, keywords) and once inside
`_build_concept_network_for_document` at line 259 (edges).  A store state
is reachable when some sequence of ingestion calls, the last one possibly
stopped between its two commits, produces it.  The predicate is
parametrised by a constraint on the ingested records so that both
unconstrained and valid-input reachability can be stated. -/
inductive ReachableUnder (P : ExtractionResult → Prop) : Store → Prop where
  | init : ReachableUnder P emptyStore
  | main (s : Store) (r : ExtractionResult) (fp : Str) :
      ReachableUnder P s → P r → ReachableUnder P (ingestMain s r fp)
  | network (s : Store) (k : Str) :
      ReachableUnder P s → ReachableUnder P (buildConceptNetworkForDocument s k)

/-- Committed states reachable by arbitrary ingestion calls. -/
def Reachable : Store → Prop := ReachableUnder fun _ => True

/-- Pages of a record carry pairwise-distinct page numbers. -/
def distinctPageNums (r : ExtractionResult) : Prop :=
  (r.pages.map (·.page_num)).Nodup

/-- The page rows of one `(cite_key, page_num)` pair. -/
def pagesKeyNum (s : Store) (k : Str) (n : Nat) : List PageRow :=
  s.pages.filter fun p => decide (p.cite_key = k ∧ p.page_num = n)

/-- The keyword rows of one citation key in a store. -/
def keywordRowsFor (s : Store) (k : Str) : List KeywordRow :=
  rowsFor s.keywords k

/-- The edge rows of one citation key in a store. -/
def edgesFor (s : Store) (k : Str) : List EdgeRow :=
  s.concept_network.filter fun e => decide (e.cite_key = k)

/-- The page rows of one citation key in a store. -/
def pagesFor (s : Store) (k : Str) : List PageRow :=
  s.pages.filter fun p => decide (p.cite_key = k)

/-! ## Generic helper lemmas -/

theorem filter_append_of_all_neg {α : Type} (p : α → Bool) (l m : List α)
    (hm : ∀ x ∈ m, p x = false) :
    (l.filter p ++ m).filter p = l.filter p := by
  rw [List.filter_append, List.filter_filter]
  have h1 : m.filter p = [] := List.filter_eq_nil_iff.mpr (by intro a ha; simp [hm a ha])
  have h2 : (l.filter fun a => p a && p a) = l.filter p := by
    apply List.filter_congr; intro a _; cases p a <;> simp
  rw [h1, h2, List.append_nil]

theorem filter_append_of_all_pos {α : Type} (p q : α → Bool) (l m : List α)
    (hm : ∀ x ∈ m, q x = true) (hpq : ∀ x, p x = true → q x = false) :
    (l.filter p ++ m).filter q = m := by
  rw [List.filter_append, List.filter_filter]
  have h1 : (l.filter fun a => q a && p a) = [] := by
    apply List.filter_eq_nil_iff.mpr
    intro a _
    cases hp : p a
    · simp
    · simp [hpq a hp]
  have h2 : m.filter q = m := List.filter_eq_self.mpr hm
  rw [h1, h2, List.nil_append]

theorem key_ne_filter {α : Type} (key : α → Str) (k : Str) (l m : List α)
    (hm : ∀ x ∈ m, key x = k) :
    ((l.filter fun x => decide (key x ≠ k)) ++ m).filter (fun x => decide (key x ≠ k)) =
      l.filter fun x => decide (key x ≠ k) := by
  apply filter_append_of_all_neg
  intro x hx
  simp [hm x hx]

theorem key_eq_filter {α : Type} (key : α → Str) (k : Str) (l m : List α)
    (hm : ∀ x ∈ m, key x = k) :
    ((l.filter fun x => decide (key x ≠ k)) ++ m).filter (fun x => decide (key x = k)) = m := by
  apply filter_append_of_all_pos
  · intro x hx; simp [hm x hx]
  · intro x hx
    simp only [decide_eq_true_eq] at hx
    simp [hx]

/-! ## C1: idempotence of ingestion -/

/-- The fresh keyword rows inserted for a record. -/
def freshKeywordRows (r : ExtractionResult) : List KeywordRow :=
  r.pages.flatMap fun p => p.keywords.map (mkKeywordRow r.metadata.cite_key p)

/-- The fresh page rows inserted for a record. -/
def freshPageRows (r : ExtractionResult) : List PageRow :=
  r.pages.map (mkPageRow r.metadata.cite_key)

theorem aer_documents (s : Store) (r : ExtractionResult) (fp : Str) :
    (addExtractionResult s r fp).documents =
      (s.documents.filter fun d => decide (d.cite_key ≠ r.metadata.cite_key)) ++
        [mkDocRow r.metadata r.key_concepts fp] := rfl

theorem aer_pages (s : Store) (r : ExtractionResult) (fp : Str) :
    (addExtractionResult s r fp).pages =
      (s.pages.filter fun p => decide (p.cite_key ≠ r.metadata.cite_key)) ++
        freshPageRows r := rfl

theorem aer_keywords (s : Store) (r : ExtractionResult) (fp : Str) :
    (addExtractionResult s r fp).keywords =
      (s.keywords.filter fun x => decide (x.cite_key ≠ r.metadata.cite_key)) ++
        freshKeywordRows r := rfl

theorem aer_network (s : Store) (r : ExtractionResult) (fp : Str) :
    (addExtractionResult s r fp).concept_network =
      (s.concept_network.filter fun e => decide (e.cite_key ≠ r.metadata.cite_key)) ++
        (allPairs (rankKeywords
          (rowsFor (ingestMain s r fp).keywords r.metadata.cite_key))).map fun pr =>
            { concept := pr.1, related_concept := pr.2, cite_key := r.metadata.cite_key
              co_occurrence_count := 1 } := rfl

theorem mem_freshKeywordRows_cite_key (r : ExtractionResult) :
    ∀ x ∈ freshKeywordRows r, KeywordRow.cite_key x = r.metadata.cite_key := by
  intro x hx
  simp only [freshKeywordRows, List.mem_flatMap, List.mem_map] at hx
  obtain ⟨p, _, kw, _, rfl⟩ := hx
  rfl

theorem mem_freshPageRows_cite_key (r : ExtractionResult) :
    ∀ x ∈ freshPageRows r, PageRow.cite_key x = r.metadata.cite_key := by
  intro x hx
  simp only [freshPageRows, List.mem_map] at hx
  obtain ⟨p, _, rfl⟩ := hx
  rfl

theorem rowsFor_ingestMain (s : Store) (r : ExtractionResult) (fp : Str) :
    rowsFor (ingestMain s r fp).keywords r.metadata.cite_key =
      freshKeywordRows r := by
  show rowsFor ((s.keywords.filter fun x => decide (x.cite_key ≠ r.metadata.cite_key)) ++
    freshKeywordRows r) r.metadata.cite_key = freshKeywordRows r
  unfold rowsFor
  exact key_eq_filter KeywordRow.cite_key _ _ _ (mem_freshKeywordRows_cite_key r)

/-- C1 — confirmed.  Ingesting the same extraction result record twice in
succession leaves the store in exactly the same final state (all four
tables, content and counts) as ingesting it once: every update is
delete-all-rows-for-this-citation-key-then-reinsert, and the reinserted
rows depend only on the record and the source path. -/
theorem addExtractionResult_idempotent (s : Store) (r : ExtractionResult) (fp : Str) :
    addExtractionResult (addExtractionResult s r fp) r fp =
      addExtractionResult s r fp := by
  have hdoc : ∀ x ∈ [mkDocRow r.metadata r.key_concepts fp],
      DocRow.cite_key x = r.metadata.cite_key := by
    intro x hx; simp at hx; subst hx; rfl
  ext1
  case documents =>
    rw [aer_documents, aer_documents,
      key_ne_filter DocRow.cite_key r.metadata.cite_key s.documents _ hdoc]
  case pages =>
    rw [aer_pages, aer_pages,
      key_ne_filter PageRow.cite_key r.metadata.cite_key s.pages _
        (mem_freshPageRows_cite_key r)]
  case keywords =>
    rw [aer_keywords, aer_keywords,
      key_ne_filter KeywordRow.cite_key r.metadata.cite_key s.keywords _
        (mem_freshKeywordRows_cite_key r)]
  case concept_network =>
    rw [aer_network, aer_network,
      rowsFor_ingestMain, rowsFor_ingestMain,
      key_ne_filter EdgeRow.cite_key r.metadata.cite_key s.concept_network _
        (by
          intro x hx
          simp only [List.mem_map] at hx
          obtain ⟨pr, _, rfl⟩ := hx
          rfl)]

/-! ## C5: the context-snippet algorithm -/

/-- C5 — confirmed.  `_extract_keyword_context` implements the specified
algorithm: when the keyword has no case-insensitive occurrence in the
text the result is the empty string; otherwise, with `pos` the index of
the first case-insensitive occurrence, the result is the slice
`text[start:stop]` with `start = max(0, pos - window/2)` (here the
truncated `pos - window / 2` on naturals) and
`stop = min(len(text), pos + len(keyword) + window/2)`, trimmed of
surrounding whitespace, prefixed with `"..."` exactly when `start > 0`
and suffixed with `"..."` exactly when `stop < len(text)`.  The function
is pure, so it depends only on `(keyword, text, window)` and returns the
identical output on every call. -/
theorem extractKeywordContext_spec (keyword text : Str) (window : Nat) :
    (findSub (lower keyword) (lower text) = none →
      extractKeywordContext keyword text window = []) ∧
    (∀ pos, findSub (lower keyword) (lower text) = some pos →
      extractKeywordContext keyword text window =
        (if 0 < pos - window / 2 then "...".data else []) ++
          stripStr ((text.drop (pos - window / 2)).take
            (min text.length (pos + keyword.length + window / 2) -
              (pos - window / 2))) ++
          (if min text.length (pos + keyword.length + window / 2) < text.length
            then "...".data else [])) := by
  constructor
  · intro h
    unfold extractKeywordContext
    rw [h]
  · intro pos h
    unfold extractKeywordContext
    rw [h]
    by_cases h1 : 0 < pos - window / 2 <;>
      by_cases h2 : min text.length (pos + keyword.length + window / 2) < text.length <;>
        simp [h1, h2, List.append_assoc]

/-- Witness for C5 at the spec's own example: `"ammonia"` occurs at index
4 of `"... ammonia synthesis ..."`, and the snippet equals the specified
slice expression there. -/
theorem extractKeywordContext_spec_witness :
    findSub (lower "ammonia".data) (lower "... ammonia synthesis ...".data) = some 4 ∧
    extractKeywordContext "ammonia".data "... ammonia synthesis ...".data 200 =
      (if 0 < 4 - 200 / 2 then "...".data else []) ++
        stripStr ((("... ammonia synthesis ...".data).drop (4 - 200 / 2)).take
          (min ("... ammonia synthesis ...".data).length
            (4 + ("ammonia".data).length + 200 / 2) - (4 - 200 / 2))) ++
        (if min ("... ammonia synthesis ...".data).length
            (4 + ("ammonia".data).length + 200 / 2) <
              ("... ammonia synthesis ...".data).length
          then "...".data else []) :=
  ⟨by decide,
    (extractKeywordContext_spec "ammonia".data "... ammonia synthesis ...".data 200).2
      4 (by decide)⟩

/-! ## C4: no input validation of the citation key -/

/-- A record whose `metadata` carries an empty (or missing, which
`metadata.get("cite_key", "")` also reads as empty) citation key. -/
def noKeyMeta : Metadata :=
  { cite_key := [], title := "T".data, authors := [], year := []
    keywords := [], page_count := 0, extraction_date := [], processing_time := 0 }

def noKeyRecord : ExtractionResult :=
  { metadata := noKeyMeta, pages := [], key_concepts := [] }

/-- C4 counterexample.  The claim says ingestion of a record with an
empty citation key fails immediately and performs no write.  The code
performs no validation at all: ingesting such a record mutates the store,
inserting a document row under the empty citation key. -/
theorem addExtractionResult_emptyKey_writes :
    noKeyRecord.metadata.cite_key = [] ∧
    addExtractionResult emptyStore noKeyRecord "f".data ≠ emptyStore ∧
    (addExtractionResult emptyStore noKeyRecord "f".data).documents =
      [mkDocRow noKeyMeta [] "f".data] := by
  refine ⟨rfl, ?_, rfl⟩
  intro h
  have h2 : (addExtractionResult emptyStore noKeyRecord "f".data).documents =
      emptyStore.documents := by rw [h]
  simp [aer_documents, emptyStore] at h2

/-- C4 — amended.  `add_extraction_result` performs no validation of
`metadata.cite_key`: a record whose citation key is missing or empty is
ingested without any error, exactly as for any other key — the document
row is recorded under the empty citation key (replacing any prior
empty-key document), and the page and keyword rows are inserted under the
empty key likewise. -/
theorem addExtractionResult_emptyKey (s : Store) (r : ExtractionResult) (fp : Str)
    (h : r.metadata.cite_key = []) :
    (addExtractionResult s r fp).documents =
      (s.documents.filter fun d => decide (d.cite_key ≠ ([] : Str))) ++
        [mkDocRow r.metadata r.key_concepts fp] ∧
    (addExtractionResult s r fp).pages =
      (s.pages.filter fun p => decide (p.cite_key ≠ ([] : Str))) ++ freshPageRows r ∧
    (addExtractionResult s r fp).keywords =
      (s.keywords.filter fun x => decide (x.cite_key ≠ ([] : Str))) ++
        freshKeywordRows r := by
  refine ⟨?_, ?_, ?_⟩
  · rw [aer_documents, h]
  · rw [aer_pages, h]
  · rw [aer_keywords, h]

/-- Witness for C4's amended theorem at the concrete empty-key record. -/
theorem addExtractionResult_emptyKey_witness :
    (addExtractionResult emptyStore noKeyRecord "f".data).documents =
      (emptyStore.documents.filter fun d => decide (d.cite_key ≠ ([] : Str))) ++
        [mkDocRow noKeyRecord.metadata noKeyRecord.key_concepts "f".data] :=
  (addExtractionResult_emptyKey emptyStore noKeyRecord "f".data rfl).1

/-! ## C2: ingestion commits in two transactions, not one -/

def pageKw (n : Nat) (kws : List Str) : PageData :=
  { page_num := n, content_type := [], keywords := kws
    processed_text := [], figures := 0, tables := 0, equations := 0 }

def metaD : Metadata :=
  { cite_key := "d".data, title := [], authors := [], year := []
    keywords := [], page_count := 1, extraction_date := [], processing_time := 0 }

/-- A record for citation key `"d"` with keywords `a`, `b`. -/
def recAB : ExtractionResult :=
  { metadata := metaD, pages := [pageKw 1 ["a".data, "b".data]], key_concepts := [] }

/-- A re-ingestion of `"d"` with keywords `x`, `y`. -/
def recXY : ExtractionResult :=
  { metadata := metaD, pages := [pageKw 1 ["x".data, "y".data]], key_concepts := [] }

def storeAB : Store := addExtractionResult emptyStore recAB "f".data

/-- The state committed by line 194 during the re-ingestion of `"d"`,
before `_build_concept_network_for_document` commits on its own
connection. -/
def midXY : Store := ingestMain storeAB recXY "f".data

/-- C2 counterexample.  `add_extraction_result` commits the document,
page and keyword rows (line 194) and then rebuilds the concept network on
a second connection with its own commit (line 259 via line 198).  The
state committed in between is reachable; at it the document `"d"` has its
fresh keyword rows `x`, `y` while its concept-network edge is still the
stale `(a, b)` of the previous ingestion — over keywords that no longer
exist — contradicting per-document all-or-nothing atomicity: an error
inside the network rebuild leaves exactly this state behind. -/
theorem ingestion_not_atomic :
    Reachable midXY ∧
    (keywordRowsFor midXY "d".data).map (·.keyword) = ["x".data, "y".data] ∧
    midXY.concept_network = storeAB.concept_network ∧
    edgesFor midXY "d".data =
      [{ concept := "a".data, related_concept := "b".data, cite_key := "d".data
         co_occurrence_count := 1 }] ∧
    midXY.concept_network ≠
      (addExtractionResult storeAB recXY "f".data).concept_network := by
  refine ⟨?_, by decide, by decide, by decide, by decide⟩
  exact ReachableUnder.main _ recXY _
    (ReachableUnder.network _ "d".data
      (ReachableUnder.main _ recAB _ ReachableUnder.init trivial)) trivial

/-- C2 — amended.  The first phase of the ingestion (document, pages,
keywords) is one transaction, so at every state the call commits — the
line-194 intermediate one and the final one — the document's page rows
and keyword rows are both the fresh ones: no committed state pairs stale
pages with fresh keywords.  Only the separately committed concept-network
rebuild can be observed stale, as the counterexample shows. -/
theorem ingestion_phase_consistency (s : Store) (r : ExtractionResult) (fp : Str) :
    pagesFor (ingestMain s r fp) r.metadata.cite_key = freshPageRows r ∧
    keywordRowsFor (ingestMain s r fp) r.metadata.cite_key = freshKeywordRows r ∧
    pagesFor (addExtractionResult s r fp) r.metadata.cite_key = freshPageRows r ∧
    keywordRowsFor (addExtractionResult s r fp) r.metadata.cite_key =
      freshKeywordRows r := by
  have hpages : pagesFor (ingestMain s r fp) r.metadata.cite_key = freshPageRows r := by
    show ((s.pages.filter fun p => decide (p.cite_key ≠ r.metadata.cite_key)) ++
      freshPageRows r).filter (fun p => decide (p.cite_key = r.metadata.cite_key)) =
        freshPageRows r
    exact key_eq_filter PageRow.cite_key _ _ _ (mem_freshPageRows_cite_key r)
  exact ⟨hpages, rowsFor_ingestMain s r fp, hpages, rowsFor_ingestMain s r fp⟩

/-! ## C9: uniqueness of (citation key, page number) -/

/-- A record whose two pages both carry page number 1. -/
def recDupPages : ExtractionResult :=
  { metadata := metaD, pages := [pageKw 1 ["a".data], pageKw 1 ["b".data]]
    key_concepts := [] }

def storeDup : Store := addExtractionResult emptyStore recDupPages "f".data

/-- C9 counterexample.  The claim asserts uniqueness of
`(cite_key, page_num)` after any sequence of ingestion calls, but
`add_extraction_result` inserts the incoming pages verbatim: a single
record whose pages list carries the same page number twice produces two
committed page rows with the same `(cite_key, page_num)` pair — the
claimed bound `≤ 1` fails at the reachable state `storeDup` with
citation key `"d"` and page number 1. -/
theorem pages_unique_counterexample :
    Reachable storeDup ∧ (pagesKeyNum storeDup "d".data 1).length = 2 := by
  constructor
  · exact ReachableUnder.network _ "d".data
      (ReachableUnder.main _ recDupPages _ ReachableUnder.init trivial)
  · decide

theorem pagesKeyNum_ingestMain (s : Store) (r : ExtractionResult) (fp : Str)
    (k : Str) (n : Nat) :
    pagesKeyNum (ingestMain s r fp) k n =
      ((s.pages.filter fun p => decide (p.cite_key ≠ r.metadata.cite_key)).filter
        (fun p => decide (p.cite_key = k ∧ p.page_num = n))) ++
      ((freshPageRows r).filter fun p => decide (p.cite_key = k ∧ p.page_num = n)) := by
  show ((s.pages.filter fun p => decide (p.cite_key ≠ r.metadata.cite_key)) ++
      freshPageRows r).filter (fun p => decide (p.cite_key = k ∧ p.page_num = n)) = _
  rw [List.filter_append]

/-- C9 — amended.  The uniqueness invariant holds for every committed
state reachable by ingestion calls whose records carry pairwise-distinct
page numbers (which the counterexample shows is needed): every ingestion
first deletes all pages of its citation key and then inserts one row per
incoming page, so each `(cite_key, page_num)` pair has at most one row. -/
theorem pages_unique_of_distinct (s : Store)
    (h : ReachableUnder distinctPageNums s) (k : Str) (n : Nat) :
    (pagesKeyNum s k n).length ≤ 1 := by
  induction h with
  | init => simp [pagesKeyNum, emptyStore]
  | network s' k' _ ih =>
    have : pagesKeyNum (buildConceptNetworkForDocument s' k') k n =
        pagesKeyNum s' k n := rfl
    rw [this]
    exact ih
  | main s' r fp _ hP ih =>
    rw [pagesKeyNum_ingestMain, List.length_append]
    have hold : ((s'.pages.filter fun p =>
        decide (p.cite_key ≠ r.metadata.cite_key)).filter
          (fun p => decide (p.cite_key = k ∧ p.page_num = n))).length ≤
        (pagesKeyNum s' k n).length := by
      unfold pagesKeyNum
      rw [List.filter_filter]
      simp only [← List.countP_eq_length_filter]
      apply List.countP_mono_left
      intro a _ ha
      simp only [Bool.and_eq_true, decide_eq_true_eq] at ha
      simp [ha.1]
    by_cases hk : k = r.metadata.cite_key
    · subst hk
      have hz : ((s'.pages.filter fun p =>
          decide (p.cite_key ≠ r.metadata.cite_key)).filter
          (fun p => decide (p.cite_key = r.metadata.cite_key ∧ p.page_num = n))).length
            = 0 := by
        rw [List.filter_filter]
        have he : (s'.pages.filter fun a =>
            decide (a.cite_key = r.metadata.cite_key ∧ a.page_num = n) &&
              decide (a.cite_key ≠ r.metadata.cite_key)) = [] := by
          apply List.filter_eq_nil_iff.mpr
          intro a _
          by_cases hc : a.cite_key = r.metadata.cite_key <;> simp [hc]
        rw [he]
        rfl
      have hfresh : (((freshPageRows r).filter fun p =>
          decide (p.cite_key = r.metadata.cite_key ∧ p.page_num = n))).length ≤ 1 := by
        unfold freshPageRows
        rw [← List.countP_eq_length_filter, List.countP_map]
        have hcount : List.countP
            ((fun p => decide (p.cite_key = r.metadata.cite_key ∧ p.page_num = n)) ∘
              mkPageRow r.metadata.cite_key)
              r.pages = List.countP (fun p => decide (p.page_num = n)) r.pages := by
          apply List.countP_congr
          intro p _
          simp [mkPageRow, Function.comp]
        rw [hcount]
        have hnd : (r.pages.map (·.page_num)).Nodup := hP
        have hle := List.nodup_iff_count_le_one.mp hnd n
        rw [List.count_eq_countP, List.countP_map] at hle
        convert hle using 1
      omega
    · have hz : (((freshPageRows r).filter fun p =>
          decide (p.cite_key = k ∧ p.page_num = n))).length = 0 := by
        have : ((freshPageRows r).filter fun p =>
            decide (p.cite_key = k ∧ p.page_num = n)) = [] := by
          apply List.filter_eq_nil_iff.mpr
          intro a ha
          have hck := mem_freshPageRows_cite_key r a ha
          simp only [decide_eq_true_eq, not_and]
          intro hc
          exact fun _ => hk (hc.symm.trans hck)
        rw [this]
        rfl
      omega

/-- Witness for C9's amended theorem: a concrete valid-input reachable
state satisfies the uniqueness bound. -/
theorem pages_unique_of_distinct_witness :
    (pagesKeyNum (ingestMain emptyStore recAB "f".data) "d".data 1).length ≤ 1 :=
  pages_unique_of_distinct _
    (ReachableUnder.main _ recAB _ ReachableUnder.init
      (by unfold distinctPageNums; decide)) "d".data 1

/-! ## Lemmas about the descending insertion sort and `allPairs` -/

theorem length_insertDesc {α : Type} (w : α → Nat) (x : α) (l : List α) :
    (insertDesc w x l).length = l.length + 1 := by
  induction l with
  | nil => rfl
  | cons y ys ih =>
    unfold insertDesc
    by_cases h : w y ≤ w x <;> simp [h, ih]

theorem length_sortDesc {α : Type} (w : α → Nat) (l : List α) :
    (sortDesc w l).length = l.length := by
  induction l with
  | nil => rfl
  | cons x xs ih => simp [sortDesc, length_insertDesc, ih]

theorem mem_insertDesc {α : Type} (w : α → Nat) (x a : α) (l : List α) :
    a ∈ insertDesc w x l ↔ a = x ∨ a ∈ l := by
  induction l with
  | nil => simp [insertDesc]
  | cons y ys ih =>
    unfold insertDesc
    by_cases h : w y ≤ w x
    · simp [h]
      try tauto
    · simp [h, ih]
      try tauto

theorem mem_sortDesc {α : Type} (w : α → Nat) (a : α) (l : List α) :
    a ∈ sortDesc w l ↔ a ∈ l := by
  induction l with
  | nil => simp [sortDesc]
  | cons x xs ih => simp [sortDesc, mem_insertDesc, ih]

theorem pairwise_insertDesc {α : Type} (w : α → Nat) (x : α) (l : List α)
    (h : l.Pairwise fun a b => w b ≤ w a) :
    (insertDesc w x l).Pairwise fun a b => w b ≤ w a := by
  induction l with
  | nil => simp [insertDesc]
  | cons y ys ih =>
    rw [List.pairwise_cons] at h
    unfold insertDesc
    by_cases hc : w y ≤ w x
    · rw [if_pos hc, List.pairwise_cons]
      refine ⟨?_, List.Pairwise.cons h.1 h.2⟩
      intro b hb
      rcases List.mem_cons.mp hb with hb | hb
      · exact hb ▸ hc
      · exact le_trans (h.1 b hb) hc
    · rw [if_neg hc, List.pairwise_cons]
      refine ⟨?_, ih h.2⟩
      intro b hb
      rcases (mem_insertDesc w x b ys).mp hb with hb | hb
      · exact hb ▸ (le_of_lt (lt_of_not_le hc))
      · exact h.1 b hb

theorem pairwise_sortDesc {α : Type} (w : α → Nat) (l : List α) :
    (sortDesc w l).Pairwise fun a b => w b ≤ w a := by
  induction l with
  | nil => simp [sortDesc]
  | cons x xs ih => exact pairwise_insertDesc w x _ ih

theorem allPairs_length {α : Type} (l : List α) :
    2 * (allPairs l).length = l.length * (l.length - 1) := by
  induction l with
  | nil => rfl
  | cons x xs ih =>
    unfold allPairs
    rw [List.length_append, List.length_map, List.length_cons]
    have hexp : (xs.length + 1) * (xs.length + 1 - 1) =
        xs.length * (xs.length - 1) + 2 * xs.length := by
      cases xs with
      | nil => rfl
      | cons y ys =>
        simp only [List.length_cons, Nat.add_sub_cancel]
        ring
    rw [hexp]
    omega

theorem mem_allPairs_of_lt {α : Type} (l : List α) (i j : Nat) (hj : j < l.length)
    (hij : i < j) : (l.get ⟨i, lt_trans hij hj⟩, l.get ⟨j, hj⟩) ∈ allPairs l := by
  induction l generalizing i j with
  | nil => simp at hj
  | cons x xs ih =>
    unfold allPairs
    rw [List.mem_append]
    cases i with
    | zero =>
      left
      rw [List.mem_map]
      have hj1 : j - 1 < xs.length := by simp at hj; omega
      refine ⟨xs.get ⟨j - 1, hj1⟩, List.get_mem xs _ _, ?_⟩
      have hgj : (x :: xs).get ⟨j, hj⟩ = xs.get ⟨j - 1, hj1⟩ := by
        cases j with
        | zero => omega
        | succ j' => rfl
      rw [hgj]
      rfl
    | succ i' =>
      right
      cases j with
      | zero => omega
      | succ j' =>
        have hj' : j' < xs.length := by simpa using hj
        have := ih i' j' hj' (by omega)
        exact this

/-! ## C6: concept-network rebuild postcondition -/

/-- The distinct keywords of a citation key's rows (the `GROUP BY
keyword` groups of lines 233-243). -/
def distinctKeywordsFor (s : Store) (k : Str) : List Str :=
  dedupF [] ((rowsFor s.keywords k).map (·.keyword))

theorem rankedKeywords_length (s : Store) (k : Str) :
    (rankedKeywords s k).length = min 20 (distinctKeywordsFor s k).length := by
  unfold rankedKeywords rankKeywords distinctKeywordsFor
  rw [List.length_take, List.length_map, length_sortDesc, List.length_map]

/-- The edge built for an ordered keyword pair. -/
def mkEdgeRow (k : Str) (pr : Str × Str) : EdgeRow :=
  { concept := pr.1, related_concept := pr.2, cite_key := k
    co_occurrence_count := 1 }

theorem build_edgesFor (s : Store) (k : Str) :
    edgesFor (buildConceptNetworkForDocument s k) k =
      (allPairs (rankedKeywords s k)).map (mkEdgeRow k) := by
  unfold edgesFor buildConceptNetworkForDocument mkEdgeRow
  exact key_eq_filter EdgeRow.cite_key _ _ _ (by
    intro x hx
    simp only [List.mem_map] at hx
    obtain ⟨pr, _, rfl⟩ := hx
    rfl)

/-- C6 — confirmed.  Rebuilding the concept network for a citation key
leaves, for that key, exactly one weight-1 edge per ordered pair
`(kw_i, kw_j)`, `i < j`, of the ranked top-20 keyword list (distinct
keywords of the key ordered by descending occurrence-row count, truncated
to 20) and nothing else, all previously existing edges of the key having
been deleted and every other key's edges untouched; the edge count is
`n*(n-1)/2` for the ranked length `n = min 20 (number of distinct
keywords)` — in particular `n*(n-1)/2` whenever there are fewer than 20
distinct keywords — and never exceeds `20*19/2 = 190`. -/
theorem buildConceptNetwork_spec (s : Store) (k : Str) :
    edgesFor (buildConceptNetworkForDocument s k) k =
      (allPairs (rankedKeywords s k)).map (mkEdgeRow k) ∧
    ((buildConceptNetworkForDocument s k).concept_network.filter fun e =>
      decide (e.cite_key ≠ k)) =
      s.concept_network.filter (fun e => decide (e.cite_key ≠ k)) ∧
    (edgesFor (buildConceptNetworkForDocument s k) k).length =
      (rankedKeywords s k).length * ((rankedKeywords s k).length - 1) / 2 ∧
    (rankedKeywords s k).length = min 20 (distinctKeywordsFor s k).length ∧
    (edgesFor (buildConceptNetworkForDocument s k) k).length ≤ 190 := by
  have hlen2 : 2 * (edgesFor (buildConceptNetworkForDocument s k) k).length =
      (rankedKeywords s k).length * ((rankedKeywords s k).length - 1) := by
    rw [build_edgesFor, List.length_map, allPairs_length]
  have hn20 : (rankedKeywords s k).length ≤ 20 := by
    rw [rankedKeywords_length]
    exact min_le_left _ _
  have hbound : (rankedKeywords s k).length * ((rankedKeywords s k).length - 1) ≤
      380 := by
    calc (rankedKeywords s k).length * ((rankedKeywords s k).length - 1) ≤
        20 * 19 := Nat.mul_le_mul hn20 (by omega)
    _ = 380 := rfl
  refine ⟨build_edgesFor s k, ?_, by omega, rankedKeywords_length s k, by omega⟩
  unfold buildConceptNetworkForDocument
  exact key_ne_filter EdgeRow.cite_key _ _ _ (by
    intro x hx
    simp only [List.mem_map] at hx
    obtain ⟨pr, _, rfl⟩ := hx
    rfl)

/-! ## Lemmas about lower-casing, substring matching and `dedupF` -/

theorem toNat_ofNat_of_lt {n : Nat} (h : n < 55296) : (Char.ofNat n).toNat = n := by
  unfold Char.ofNat
  rw [dif_pos (Or.inl h)]
  rfl

theorem lowerChar_idem (c : Char) : lowerChar (lowerChar c) = lowerChar c := by
  unfold lowerChar
  by_cases h : 65 ≤ c.toNat ∧ c.toNat ≤ 90
  · rw [if_pos h]
    have hv : (Char.ofNat (c.toNat + 32)).toNat = c.toNat + 32 :=
      toNat_ofNat_of_lt (by omega)
    rw [if_neg]
    rw [hv]
    omega
  · rw [if_neg h, if_neg h]

theorem lower_idem (s : Str) : lower (lower s) = lower s := by
  unfold lower
  induction s with
  | nil => rfl
  | cons c cs ih => simp only [List.map_cons, lowerChar_idem, ih]

theorem isPrefixOf_self (l : Str) : l.isPrefixOf l = true := by
  induction l with
  | nil => rfl
  | cons c cs ih => simp [List.isPrefixOf, ih]

theorem containsSub_self (s : Str) : containsSub s s = true := by
  cases s with
  | nil => rfl
  | cons c cs =>
    unfold containsSub findSub
    rw [if_pos]
    · rfl
    · exact isPrefixOf_self (c :: cs)

theorem suffixMatch_iff (f : Str → Bool) (s : Str) :
    suffixMatch f s = true ↔ ∃ n, f (s.drop n) = true := by
  induction s with
  | nil =>
    constructor
    · intro h
      exact ⟨0, h⟩
    · rintro ⟨n, h⟩
      rw [List.drop_nil] at h
      exact h
  | cons c cs ih =>
    show (f (c :: cs) || suffixMatch f cs) = true ↔ _
    rw [Bool.or_eq_true, ih]
    constructor
    · rintro (h | ⟨n, h⟩)
      · exact ⟨0, h⟩
      · exact ⟨n + 1, h⟩
    · rintro ⟨n, h⟩
      cases n with
      | zero => exact Or.inl h
      | succ n' => exact Or.inr ⟨n', h⟩

theorem likePattern_pct (t : Str) : likePattern ['%'] t = true := by
  show suffixMatch (fun u => likePattern [] u) t = true
  rw [suffixMatch_iff]
  exact ⟨t.length, by simp [likePattern, List.drop_length]⟩

/-- The lower-cased copy of a string, read as a `LIKE` pattern followed
by `%`, matches the string itself: its `%` and `_` characters are
wildcards that their own originals satisfy, and every other character
matches case-insensitively. -/
theorem likePattern_lower_self_pct (m : Str) :
    likePattern (lower m ++ ['%']) m = true := by
  induction m with
  | nil => exact likePattern_pct []
  | cons c cs ih =>
    show likePattern (lowerChar c :: (lower cs ++ ['%'])) (c :: cs) = true
    by_cases h1 : lowerChar c = '%'
    · have hstep : likePattern (lowerChar c :: (lower cs ++ ['%'])) (c :: cs) =
          suffixMatch (fun u => likePattern (lower cs ++ ['%']) u) (c :: cs) := by
        simp [likePattern, h1]
      rw [hstep, suffixMatch_iff]
      exact ⟨1, ih⟩
    · by_cases h2 : lowerChar c = '_'
      · simp [likePattern, h1, h2, ih]
      · simp [likePattern, h1, h2, ih, lowerChar_idem]

/-- A stored value matches the `LIKE` pattern the code builds from it. -/
theorem likeQueryPattern_self (m : Str) :
    likePattern (likeQueryPattern m) m = true := by
  show likePattern ('%' :: (lower m ++ ['%'])) m = true
  have hstep : likePattern ('%' :: (lower m ++ ['%'])) m =
      suffixMatch (fun u => likePattern (lower m ++ ['%']) u) m := by
    simp [likePattern]
  rw [hstep, suffixMatch_iff]
  exact ⟨0, likePattern_lower_self_pct m⟩

/-- A wildcard-free `LIKE` pattern followed by `%` matches a string
exactly when it is a case-folded prefix of it. -/
theorem likePattern_append_pct_iff (m : Str) (t : Str)
    (hm : ∀ c ∈ m, c ≠ '%' ∧ c ≠ '_') :
    likePattern (m ++ ['%']) t = true ↔
      ((m.map lowerChar).isPrefixOf (t.map lowerChar)) = true := by
  induction m generalizing t with
  | nil =>
    simp [likePattern_pct, List.isPrefixOf]
  | cons p ps ih =>
    have hp := hm p (List.mem_cons_self p ps)
    have hps : ∀ c ∈ ps, c ≠ '%' ∧ c ≠ '_' :=
      fun c hc => hm c (List.mem_cons_of_mem p hc)
    cases t with
    | nil =>
      show likePattern (p :: (ps ++ ['%'])) [] = true ↔ _
      simp [likePattern, hp.1, List.isPrefixOf]
    | cons c cs =>
      show likePattern (p :: (ps ++ ['%'])) (c :: cs) = true ↔ _
      have hstep : likePattern (p :: (ps ++ ['%'])) (c :: cs) =
          ((lowerChar p == lowerChar c) && likePattern (ps ++ ['%']) cs) := by
        simp [likePattern, hp.1, hp.2]
      rw [hstep, List.map_cons, List.map_cons]
      show _ ↔ ((lowerChar p == lowerChar c) &&
        (ps.map lowerChar).isPrefixOf (cs.map lowerChar)) = true
      rw [Bool.and_eq_true, Bool.and_eq_true, ih cs hps]

theorem containsSub_iff_exists_drop (m t : Str) :
    containsSub m t = true ↔ ∃ n, m.isPrefixOf (t.drop n) = true := by
  unfold containsSub
  induction t with
  | nil =>
    cases m with
    | nil =>
      constructor
      · intro _
        exact ⟨0, rfl⟩
      · intro _
        rfl
    | cons a as =>
      constructor
      · intro h
        exact absurd h (by simp [findSub])
      · rintro ⟨n, h⟩
        rw [List.drop_nil] at h
        exact absurd h (by simp [List.isPrefixOf])
  | cons c cs ih =>
    show (findSub m (c :: cs)).isSome = true ↔ _
    unfold findSub
    by_cases hp : m.isPrefixOf (c :: cs) = true
    · rw [if_pos hp]
      exact ⟨fun _ => ⟨0, hp⟩, fun _ => rfl⟩
    · rw [if_neg hp]
      have hmap : ((findSub m cs).map (· + 1)).isSome = (findSub m cs).isSome := by
        cases findSub m cs <;> rfl
      rw [hmap, ih]
      constructor
      · rintro ⟨n, hn⟩
        exact ⟨n + 1, hn⟩
      · rintro ⟨n, hn⟩
        cases n with
        | zero => exact absurd hn hp
        | succ n' => exact ⟨n', hn⟩

/-- `lowerChar` maps nothing new onto characters below `'a'`: its only
non-identity outputs lie in `'a'..'z'`. -/
theorem lowerChar_eq_low (c d : Char) (hd : d.toNat < 97) (h : lowerChar c = d) :
    c = d := by
  unfold lowerChar at h
  by_cases hc : 65 ≤ c.toNat ∧ c.toNat ≤ 90
  · rw [if_pos hc] at h
    have hval := congrArg Char.toNat h
    rw [toNat_ofNat_of_lt (by omega)] at hval
    exfalso
    omega
  · rwa [if_neg hc] at h

theorem mem_lower_wildcardFree (q : Str) (h1 : '%' ∉ q) (h2 : '_' ∉ q) :
    ∀ c ∈ lower q, c ≠ '%' ∧ c ≠ '_' := by
  intro c hc
  unfold lower at hc
  rw [List.mem_map] at hc
  obtain ⟨e, he, rfl⟩ := hc
  constructor
  · intro h
    have := lowerChar_eq_low e '%' (by decide) h
    exact h1 (this ▸ he)
  · intro h
    have := lowerChar_eq_low e '_' (by decide) h
    exact h2 (this ▸ he)

/-- For a query free of the `LIKE` wildcards `%` and `_`, the pattern
the code builds matches a value exactly when the lowered query is a
substring of the lowered value. -/
theorem likeQueryPattern_iff_contains (q t : Str) (h1 : '%' ∉ q) (h2 : '_' ∉ q) :
    likePattern (likeQueryPattern q) t = true ↔
      containsSub (lower q) (lower t) = true := by
  have hwf := mem_lower_wildcardFree q h1 h2
  show likePattern ('%' :: (lower q ++ ['%'])) t = true ↔ _
  have hstep : likePattern ('%' :: (lower q ++ ['%'])) t =
      suffixMatch (fun u => likePattern (lower q ++ ['%']) u) t := by
    simp [likePattern]
  rw [hstep, suffixMatch_iff, containsSub_iff_exists_drop]
  have e1 : (lower q).map lowerChar = lower q := lower_idem q
  constructor
  · rintro ⟨n, hn⟩
    rw [likePattern_append_pct_iff _ _ hwf] at hn
    refine ⟨n, ?_⟩
    have e2 : (t.drop n).map lowerChar = (lower t).drop n := by
      unfold lower
      exact List.map_drop lowerChar t n
    rwa [e1, e2] at hn
  · rintro ⟨n, hn⟩
    refine ⟨n, ?_⟩
    rw [likePattern_append_pct_iff _ _ hwf]
    have e2 : (t.drop n).map lowerChar = (lower t).drop n := by
      unfold lower
      exact List.map_drop lowerChar t n
    rw [e1, e2]
    exact hn

theorem mem_dedupF {α : Type} [DecidableEq α] (seen l : List α) (a : α) :
    a ∈ dedupF seen l ↔ a ∈ l ∧ a ∉ seen := by
  induction l generalizing seen with
  | nil => simp [dedupF]
  | cons x xs ih =>
    unfold dedupF
    by_cases hx : x ∈ seen
    · rw [if_pos hx, ih]
      constructor
      · exact fun ⟨h1, h2⟩ => ⟨List.mem_cons_of_mem x h1, h2⟩
      · rintro ⟨h1, h2⟩
        rcases List.mem_cons.mp h1 with rfl | h1
        · exact absurd hx h2
        · exact ⟨h1, h2⟩
    · rw [if_neg hx, List.mem_cons, ih]
      constructor
      · rintro (rfl | ⟨h1, h2⟩)
        · exact ⟨List.mem_cons_self a xs, hx⟩
        · simp only [List.mem_cons] at h2
          push_neg at h2
          exact ⟨List.mem_cons_of_mem x h1, h2.2⟩
      · rintro ⟨h1, h2⟩
        by_cases hax : a = x
        · exact Or.inl hax
        · rcases List.mem_cons.mp h1 with rfl | h1
          · exact absurd rfl hax
          · refine Or.inr ⟨h1, ?_⟩
            simp only [List.mem_cons]
            push_neg
            exact ⟨hax, h2⟩

/-! ## C3: related-concept lookup is directional -/

/-- Ingestion of one record into an empty store. -/
def ingestOne (r : ExtractionResult) (fp : Str) : Store :=
  addExtractionResult emptyStore r fp

/-- A record for `"d"` in which keyword `y` (two occurrence rows) outranks
keyword `x` (one row). -/
def recYX : ExtractionResult :=
  { metadata := metaD
    pages := [pageKw 1 ["y".data], pageKw 2 ["y".data, "x".data]]
    key_concepts := [] }

def storeYX : Store := ingestOne recYX "f".data

/-- C3 counterexample.  In `storeYX` both `x` and `y` are among the
document's top-20 keywords (the ranked list is exactly `[y, x]`), so the
claim demands that `get_related_concepts("x")` include `y` with weight at
least 1.  It returns the empty list: the single edge is stored as
`(y, x)` and the query matches only the first concept column. -/
theorem getRelatedConcepts_asymmetric :
    rankedKeywords storeYX "d".data = ["y".data, "x".data] ∧
    getRelatedConcepts storeYX "x".data 10 = [] := by
  constructor
  · decide
  · decide

theorem ingestOne_network (r : ExtractionResult) (fp : Str) :
    (ingestOne r fp).concept_network =
      (allPairs (rankedKeywords (ingestOne r fp) r.metadata.cite_key)).map
        (mkEdgeRow r.metadata.cite_key) := rfl

/-- C3 — amended.  The lookup works only in the stored direction: if `A`
strictly precedes `B` in the document's frequency-ranked top-20 keyword
list (so the edge is stored as `(A, B)`), then after ingesting the
document into an empty store, `get_related_concepts(A, limit)` — with
`limit` at least the number of distinct related-concept groups the query
matches — returns `B` with summed weight at least 1.  For `A` ranked
after `B` the lookup can miss the pair, as the counterexample shows. -/
theorem getRelatedConcepts_directional (r : ExtractionResult) (fp : Str)
    (A B : Str) (i j : Nat)
    (hj : j < (rankedKeywords (ingestOne r fp) r.metadata.cite_key).length)
    (hij : i < j)
    (hA : (rankedKeywords (ingestOne r fp) r.metadata.cite_key).get
      ⟨i, lt_trans hij hj⟩ = A)
    (hB : (rankedKeywords (ingestOne r fp) r.metadata.cite_key).get ⟨j, hj⟩ = B)
    (limit : Nat)
    (hlim : (relatedGroups (ingestOne r fp) A).length ≤ limit) :
    ∃ w, (B, w) ∈ getRelatedConcepts (ingestOne r fp) A limit ∧ 1 ≤ w := by
  subst hA hB
  set s := ingestOne r fp with hs
  set k := r.metadata.cite_key with hk
  set ranked := rankedKeywords s k with hranked
  set A := ranked.get ⟨i, lt_trans hij hj⟩ with hA
  set B := ranked.get ⟨j, hj⟩ with hB
  have hedge : mkEdgeRow k (A, B) ∈ s.concept_network := by
    rw [hs, ingestOne_network]
    exact List.mem_map_of_mem (mkEdgeRow k) (mem_allPairs_of_lt ranked i j hj hij)
  have hmatched : mkEdgeRow k (A, B) ∈ matchingEdges s A := by
    unfold matchingEdges
    rw [List.mem_filter]
    exact ⟨hedge, likeQueryPattern_self A⟩
  have hrel : B ∈ dedupF [] ((matchingEdges s A).map (·.related_concept)) := by
    rw [mem_dedupF]
    refine ⟨?_, List.not_mem_nil B⟩
    exact List.mem_map_of_mem (·.related_concept) hmatched
  have hgroup : (B, (((matchingEdges s A).filter fun e =>
      decide (e.related_concept = B)).map (·.co_occurrence_count)).sum) ∈
      relatedGroups s A := by
    unfold relatedGroups
    exact List.mem_map_of_mem _ hrel
  have hsum : 1 ≤ (((matchingEdges s A).filter fun e =>
      decide (e.related_concept = B)).map (·.co_occurrence_count)).sum := by
    have hin : mkEdgeRow k (A, B) ∈ (matchingEdges s A).filter fun e =>
        decide (e.related_concept = B) := by
      rw [List.mem_filter]
      exact ⟨hmatched, by simp [mkEdgeRow]⟩
    have h1 : (1 : Nat) ∈ ((matchingEdges s A).filter fun e =>
        decide (e.related_concept = B)).map (·.co_occurrence_count) :=
      List.mem_map_of_mem (·.co_occurrence_count) hin
    exact List.single_le_sum (fun x _ => Nat.zero_le x) 1 h1
  refine ⟨_, ?_, hsum⟩
  unfold getRelatedConcepts
  rw [List.take_of_length_le (by rw [length_sortDesc]; exact hlim)]
  rw [mem_sortDesc]
  exact hgroup

/-- Witness for C3's amended theorem: in `storeYX`, `y` (index 0) precedes
`x` (index 1) in the ranked list, and the lookup from `y` finds `x`. -/
theorem getRelatedConcepts_directional_witness :
    ∃ w, ("x".data, w) ∈ getRelatedConcepts (ingestOne recYX "f".data) "y".data 10 ∧
      1 ≤ w :=
  getRelatedConcepts_directional recYX "f".data "y".data "x".data 0 1
    (by decide) (by decide) (by decide) (by decide) 10 (by decide)

/-! ## C7: keyword search -/

/-- The document of the spec's case-insensitive search scenario, ingested
with the mixed-case keyword `"Catalysis"`. -/
def metaCat : Metadata :=
  { cite_key := "smith2024".data, title := "T".data
    authors := ["Smith, J.".data], year := "2024".data, keywords := []
    page_count := 1, extraction_date := [], processing_time := 0 }

def pageCat : PageData :=
  { page_num := 1, content_type := "main".data
    keywords := ["Catalysis".data]
    processed_text := "This paper discusses catalysis.".data
    figures := 0, tables := 0, equations := 0 }

def recCat : ExtractionResult :=
  { metadata := metaCat, pages := [pageCat], key_concepts := [] }

def storeCat : Store := ingestOne recCat "f.pdf".data

/-- C7 counterexample.  The code interpolates the query into its `LIKE`
pattern without escaping, so a query's own `%` and `_` act as wildcards:
`search_keywords("c%s")` and `search_keywords("cat_lysis")` both return
the `catalysis` row of `storeCat`, although `"catalysis"` contains
neither query as a (case-insensitive) substring — refuting the claim
that the returned rows are those whose stored keyword contains the query
as a substring. -/
theorem searchKeywords_wildcard_matches :
    (∃ rec ∈ searchKeywords storeCat "c%s".data 20,
      rec.keyword = "catalysis".data) ∧
    containsSub (lower "c%s".data) (lower "catalysis".data) = false ∧
    (∃ rec ∈ searchKeywords storeCat "cat_lysis".data 20,
      rec.keyword = "catalysis".data) ∧
    containsSub (lower "cat_lysis".data) (lower "catalysis".data) = false := by
  refine ⟨by decide, by decide, by decide, by decide⟩

/-- C7 — amended.  `search_keywords` treats the query as an unescaped
`LIKE` pattern body: every returned record comes from a keyword row whose
stored keyword matches `'%' + query.lower() + '%'` under SQLite `LIKE`
semantics, joined to its owning document's row and projected onto
(citation key, title, authors, keyword, context, page number); for a
query containing no `%` and no `_` this matching is exactly
case-insensitive substring containment, as the claim states.  The
underlying match list is ordered by per-row frequency descending and the
result carries at most `limit` records.  In particular, a document
ingested with keyword `"Catalysis"` (stored lower-cased) is found both by
`search_keywords("catalysis")` and by `search_keywords("CATALYSIS")`. -/
theorem searchKeywords_like_spec (s : Store) (q : Str) (limit : Nat) :
    (∀ rec ∈ searchKeywords s q limit, ∃ row ∈ matchingRows s q,
      ∃ d, findDoc s row.cite_key = some d ∧ rec = mkSearchRecord d row) ∧
    (∀ row ∈ matchingRows s q, row ∈ s.keywords ∧
      likePattern (likeQueryPattern q) row.keyword = true) ∧
    ('%' ∉ q → '_' ∉ q → ∀ row ∈ s.keywords,
      (row ∈ matchingRows s q ↔
        containsSub (lower q) (lower row.keyword) = true)) ∧
    (searchKeywords s q limit).length ≤ limit ∧
    (searchSorted s q).Pairwise (fun a b => b.frequency ≤ a.frequency) ∧
    (∃ rec ∈ searchKeywords storeCat "catalysis".data 20,
      rec.cite_key = "smith2024".data ∧ rec.keyword = "catalysis".data) ∧
    (∃ rec ∈ searchKeywords storeCat "CATALYSIS".data 20,
      rec.cite_key = "smith2024".data ∧ rec.keyword = "catalysis".data) := by
  refine ⟨?_, ?_, ?_, ?_, pairwise_sortDesc _ _, by decide, by decide⟩
  · intro rec hrec
    have h1 : rec ∈ dedupF [] (searchJoined s q) :=
      List.take_subset _ _ hrec
    have h2 : rec ∈ searchJoined s q := ((mem_dedupF _ _ _).mp h1).1
    unfold searchJoined at h2
    rw [List.mem_filterMap] at h2
    obtain ⟨row, hrow, hmap⟩ := h2
    rw [Option.map_eq_some'] at hmap
    obtain ⟨d, hd, hrec'⟩ := hmap
    exact ⟨row, (mem_sortDesc _ _ _).mp hrow, d, hd, hrec'.symm⟩
  · intro row hrow
    unfold matchingRows at hrow
    rw [List.mem_filter] at hrow
    exact hrow
  · intro h1 h2 row hrow
    unfold matchingRows
    rw [List.mem_filter, and_iff_right hrow]
    exact likeQueryPattern_iff_contains q row.keyword h1 h2
  · exact List.length_take_le _ _

/-- Witness for C7: the wildcard-free equivalence and the length bound
applied at the concrete store. -/
theorem searchKeywords_like_spec_witness :
    (searchKeywords storeCat "catalysis".data 20).length ≤ 20 :=
  (searchKeywords_like_spec storeCat "catalysis".data 20).2.2.2.1

/-! ## C10: zero-frequency keywords are still inserted -/

theorem countOcc_eq_zero_of_findSub_none (pat l : Str)
    (h : findSub pat l = none) : countOcc pat l = 0 := by
  cases pat with
  | nil =>
    exfalso
    cases l with
    | nil => simp [findSub] at h
    | cons c cs =>
      unfold findSub at h
      rw [if_pos (by rfl)] at h
      exact Option.noConfusion h
  | cons p ps =>
    show countOccAux p ps l 0 = 0
    induction l with
    | nil => rfl
    | cons c cs ih =>
      unfold findSub at h
      by_cases hp : (p :: ps).isPrefixOf (c :: cs)
      · rw [if_pos hp] at h
        exact Option.noConfusion h
      · rw [if_neg hp] at h
        rw [Option.map_eq_none'] at h
        show (if (p :: ps).isPrefixOf (c :: cs) = true
          then 1 + countOccAux p ps cs ps.length else countOccAux p ps cs 0) = 0
        rw [if_neg hp]
        exact ih h

/-- The explicit zero-frequency row inserted for a keyword that never
occurs in its page's processed text. -/
theorem mkKeywordRow_of_absent (k : Str) (p : PageData) (kw : Str)
    (h : findSub (lower kw) (lower p.processed_text) = none) :
    mkKeywordRow k p kw =
      { keyword := lower kw, cite_key := k, page_num := p.page_num
        frequency := 0, context := [] } := by
  unfold mkKeywordRow
  rw [countOcc_eq_zero_of_findSub_none _ _ h]
  unfold extractKeywordContext
  rw [h]

/-- C10 — confirmed.  After ingestion, a document's stored
keyword-occurrence rows are exactly one row per keyword entry of each
page — the insertion is unconditional, so a keyword with no
case-insensitive occurrence in its page's processed text still yields a
row, with frequency 0 and empty context; that row is among the distinct
keywords feeding the concept-network top-20 ranking, and it is matched by
a keyword search for the keyword itself (hence also counted by the
statistics, which count rows). -/
theorem zero_frequency_rows_inserted (s : Store) (r : ExtractionResult) (fp : Str) :
    keywordRowsFor (addExtractionResult s r fp) r.metadata.cite_key =
      freshKeywordRows r ∧
    (∀ p ∈ r.pages, ∀ kw ∈ p.keywords,
      (findSub (lower kw) (lower p.processed_text) = none →
        mkKeywordRow r.metadata.cite_key p kw =
          { keyword := lower kw, cite_key := r.metadata.cite_key
            page_num := p.page_num, frequency := 0, context := [] }) ∧
      lower kw ∈
        distinctKeywordsFor (addExtractionResult s r fp) r.metadata.cite_key ∧
      mkKeywordRow r.metadata.cite_key p kw ∈
        matchingRows (addExtractionResult s r fp) (lower kw)) := by
  have hrows : keywordRowsFor (addExtractionResult s r fp) r.metadata.cite_key =
      freshKeywordRows r := rowsFor_ingestMain s r fp
  refine ⟨hrows, ?_⟩
  intro p hp kw hkw
  have hfresh : mkKeywordRow r.metadata.cite_key p kw ∈ freshKeywordRows r := by
    unfold freshKeywordRows
    rw [List.mem_flatMap]
    exact ⟨p, hp, List.mem_map_of_mem _ hkw⟩
  refine ⟨mkKeywordRow_of_absent r.metadata.cite_key p kw, ?_, ?_⟩
  · unfold distinctKeywordsFor
    rw [mem_dedupF]
    refine ⟨?_, List.not_mem_nil _⟩
    have : mkKeywordRow r.metadata.cite_key p kw ∈
        rowsFor (addExtractionResult s r fp).keywords r.metadata.cite_key := by
      show mkKeywordRow r.metadata.cite_key p kw ∈
        keywordRowsFor (addExtractionResult s r fp) r.metadata.cite_key
      rw [hrows]
      exact hfresh
    exact List.mem_map_of_mem (·.keyword) this
  · unfold matchingRows
    rw [List.mem_filter]
    constructor
    · rw [aer_keywords]
      exact List.mem_append_right _ hfresh
    · show likePattern (likeQueryPattern (lower kw))
        (mkKeywordRow r.metadata.cite_key p kw).keyword = true
      have hk : (mkKeywordRow r.metadata.cite_key p kw).keyword = lower kw := rfl
      rw [hk]
      exact likeQueryPattern_self (lower kw)

/-- Witness for C10's inner implications at a concrete record: the page
keyword `x` never occurs in the empty page text, and its row is still
present with frequency 0 and empty context. -/
theorem zero_frequency_rows_inserted_witness :
    keywordRowsFor (addExtractionResult emptyStore recXY "f".data) "d".data =
      freshKeywordRows recXY ∧
    mkKeywordRow "d".data (pageKw 1 ["x".data, "y".data]) "x".data =
      { keyword := "x".data, cite_key := "d".data, page_num := 1
        frequency := 0, context := [] } := by
  have h := zero_frequency_rows_inserted emptyStore recXY "f".data
  refine ⟨h.1, ?_⟩
  have h2 := (h.2 (pageKw 1 ["x".data, "y".data]) (by decide) "x".data
    (by decide)).1 (by decide)
  exact h2

/-! ## C8: graph export — the node filter tests the wrong column -/

/-- A record whose keyword `y` is assigned on three pages whose processed
text never contains it: the aggregate occurrence-row count is 3, while
the stored per-row `frequency` column of every row is 0. -/
def recY3 : ExtractionResult :=
  { metadata := metaD
    pages := [pageKw 1 ["y".data], pageKw 2 ["y".data], pageKw 3 ["y".data]]
    key_concepts := [] }

def storeY3 : Store := ingestOne recY3 "f".data

/-- C8.  The claim (and the `COUNT(*) AS frequency` alias of the SELECT
list) reads `HAVING frequency > 2` as a filter on the aggregate
occurrence-row count; SQLite instead resolves the bare name to the
`keywords.frequency` table column, evaluated on the group's
representative row.  Evaluating the faithful model at the failing input:
the keyword `y` of `storeY3` has occurrence-row count 3 — so the claim
requires the export to carry the node `("y", 3)` — but every one of its
rows stores frequency 0, so the program's `HAVING` rejects the group and
the export carries no nodes at all. -/
theorem exportKnowledgeGraph_having_column :
    countRows storeY3.keywords "y".data = 3 ∧
    storeY3.keywords.map (·.frequency) = [0, 0, 0] ∧
    qualifyingNodes storeY3 = [] ∧
    (exportKnowledgeGraph storeY3).nodes = [] ∧
    (exportKnowledgeGraph storeY3).node_count = 0 := by
  refine ⟨by decide, by decide, by decide, by decide, by decide⟩

end SciXtract
